import Mathlib

/-!
Shallow embedding of the deterministic aggregation / reconciliation core of the
Bank-Statement application (src/App.tsx, src/components/ResultsDisplay.tsx,
src/types.ts), together with theorems settling the frozen claims about it.

Modelling conventions:
* JavaScript numbers are embedded as exact rationals (ℚ); the decimal literal
  0.01 is the rational 1/100.
* JavaScript strings are embedded as Lean strings; `substring`, `trim`,
  `toLowerCase` and the date regex are implemented on the underlying
  character list so that they evaluate by kernel reduction.
* `localeCompare` (used only to order the summary rows for display) is
  modelled as code-point comparison; no claim depends on the collation.
* `Array.prototype.sort`, which ECMAScript requires to be stable, is
  modelled as `List.mergeSort` (a stable sort) on the comparator-induced
  boolean order `comparator a b ≤ 0`.
-/

/-- src/types.ts: the two transaction kinds of `ClientTransaction.type`. -/
inductive TxType
  | credit
  | debit
deriving DecidableEq

/-- src/types.ts `ClientTransaction`: one monetary movement. -/
structure ClientTransaction where
  clientName : String
  amount : ℚ
  type : TxType
  date : String
deriving DecidableEq

/-- src/types.ts `ClientSummary`: one row per distinct client name. -/
structure ClientSummary where
  clientName : String
  totalCredit : ℚ
  creditCount : ℕ
  totalDebit : ℚ
  debitCount : ℕ
  netTotal : ℚ
deriving DecidableEq

/-- src/types.ts `ClientMonthlyTrend`: one row per (client, month) pair. -/
structure ClientMonthlyTrend where
  clientName : String
  month : String
  totalCredit : ℚ
  totalDebit : ℚ
  netChange : ℚ
deriving DecidableEq

/-- src/types.ts `AnalysisResult`: statement header plus the transaction list. -/
structure AnalysisResult where
  transactions : List ClientTransaction
  openingBalance : ℚ
  closingBalance : ℚ
  statementPeriod : String

/-- The record produced by the `balanceVerification` memo
(src/components/ResultsDisplay.tsx lines 139-147). -/
structure BalanceVerification where
  calculatedClosing : ℚ
  difference : ℚ
  isMatch : Bool
deriving DecidableEq

/-- Character-list test for the regex `^\d{4}-\d{2}-\d{2}$`. -/
def dateCharsValid : List Char → Bool
  | [y1, y2, y3, y4, s1, m1, m2, s2, d1, d2] =>
    y1.isDigit && y2.isDigit && y3.isDigit && y4.isDigit && s1 == '-' &&
    m1.isDigit && m2.isDigit && s2 == '-' && d1.isDigit && d2.isDigit
  | _ => false

/-- The guard `t.date && /^\d{4}-\d{2}-\d{2}$/.test(t.date)` used by the trend
loop (src/App.tsx line 95, src/components/ResultsDisplay.tsx line 70). -/
def jsDateValid (s : String) : Bool :=
  !(s == "") && dateCharsValid s.data

/-- JavaScript `date.substring(0, 7)`: the `YYYY-MM` month key. -/
def jsMonthOf (s : String) : String :=
  ⟨s.data.take 7⟩

/-- JavaScript `String.prototype.toLowerCase`, on the ASCII range. -/
def jsToLower (s : String) : String :=
  ⟨s.data.map Char.toLower⟩

/-- JavaScript `String.prototype.trim`: strip whitespace from both ends. -/
def jsTrim (s : String) : String :=
  ⟨((s.data.dropWhile Char.isWhitespace).reverse.dropWhile Char.isWhitespace).reverse⟩

/-- JavaScript `haystack.includes(needle)`: substring containment. -/
def jsIncludes (haystack needle : String) : Bool :=
  decide (needle.data <:+: haystack.data)

/-- One iteration of the summary loop body applied to the entry for the
transaction's client (src/App.tsx lines 79-86): add the amount to the credit
or debit side, bump the count, and recompute `netTotal`. -/
def applyTxToSummary (s : ClientSummary) (t : ClientTransaction) : ClientSummary :=
  let s1 :=
    match t.type with
    | .credit => { s with totalCredit := s.totalCredit + t.amount, creditCount := s.creditCount + 1 }
    | .debit => { s with totalDebit := s.totalDebit + t.amount, debitCount := s.debitCount + 1 }
  { s1 with netTotal := s1.totalCredit - s1.totalDebit }

/-- The zero entry created on first sight of a client name (src/App.tsx line 77). -/
def emptySummaryFor (n : String) : ClientSummary :=
  ⟨n, 0, 0, 0, 0, 0⟩

/-- One iteration of the `summaryMap` loop (src/App.tsx lines 75-87): the map is
modelled as an insertion-ordered association list keyed by `clientName`. -/
def summStep (m : List ClientSummary) (t : ClientTransaction) : List ClientSummary :=
  if m.any (fun s => s.clientName == t.clientName) then
    m.map (fun s => if s.clientName == t.clientName then applyTxToSummary s t else s)
  else
    m ++ [applyTxToSummary (emptySummaryFor t.clientName) t]

/-- The `summaryMap` built by `processAnalysis` (src/App.tsx lines 74-87) /
the `clientSummaries` memo (src/components/ResultsDisplay.tsx lines 51-66),
before the final sort: `Object.values` in insertion order. -/
def processSummariesMap (ts : List ClientTransaction) : List ClientSummary :=
  ts.foldl summStep []

/-- Code-point comparison on character lists, modelling `localeCompare ≤ 0`. -/
def charListLe : List Char → List Char → Bool
  | [], _ => true
  | _ :: _, [] => false
  | a :: as, b :: bs =>
    if a.toNat < b.toNat then true
    else if b.toNat < a.toNat then false
    else charListLe as bs

/-- The comparator of `summaries.sort((a, b) => a.clientName.localeCompare(b.clientName))`
(src/App.tsx line 88), as the boolean order `comparator ≤ 0`. -/
def localeNameLe (a b : ClientSummary) : Bool :=
  charListLe a.clientName.data b.clientName.data

/-- The sorted `clientSummaries` list exposed by the aggregator
(src/App.tsx line 88, src/components/ResultsDisplay.tsx line 66). -/
def clientSummariesOf (ts : List ClientTransaction) : List ClientSummary :=
  (processSummariesMap ts).mergeSort localeNameLe

/-- The trend-map key `` `${t.clientName}|${month}` `` (src/App.tsx line 97). -/
def trendKeyOf (t : ClientTransaction) : String :=
  t.clientName ++ "|" ++ jsMonthOf t.date

/-- The key of an existing trend row, as the same concatenated string. -/
def trendRowKey (r : ClientMonthlyTrend) : String :=
  r.clientName ++ "|" ++ r.month

/-- One iteration of the trend loop body applied to the matching row
(src/App.tsx lines 101-106): add the amount and recompute `netChange`. -/
def applyTxToTrend (r : ClientMonthlyTrend) (t : ClientTransaction) : ClientMonthlyTrend :=
  let r1 :=
    match t.type with
    | .credit => { r with totalCredit := r.totalCredit + t.amount }
    | .debit => { r with totalDebit := r.totalDebit + t.amount }
  { r1 with netChange := r1.totalCredit - r1.totalDebit }

/-- One iteration of the `trendMap` loop (src/App.tsx lines 94-107): invalid
dates are skipped; the map is an insertion-ordered association list keyed by
the concatenated `clientName|month` string. -/
def trendStep (m : List ClientMonthlyTrend) (t : ClientTransaction) : List ClientMonthlyTrend :=
  if jsDateValid t.date then
    if m.any (fun r => trendRowKey r == trendKeyOf t) then
      m.map (fun r => if trendRowKey r == trendKeyOf t then applyTxToTrend r t else r)
    else
      m ++ [applyTxToTrend ⟨t.clientName, jsMonthOf t.date, 0, 0, 0⟩ t]
  else m

/-- The `monthlyTrends` list (src/App.tsx lines 93-108,
src/components/ResultsDisplay.tsx lines 69-85): `Object.values(trendMap)`. -/
def monthlyTrendsOf (ts : List ClientTransaction) : List ClientMonthlyTrend :=
  ts.foldl trendStep []

/-- The `filteredClientSummaries` memo (src/components/ResultsDisplay.tsx
lines 90-95): empty query returns the list itself, otherwise a
case-insensitive substring filter on `clientName`. -/
def filteredClientSummaries (q : String) (items : List ClientSummary) : List ClientSummary :=
  if q == "" then items
  else items.filter (fun s => jsIncludes (jsToLower s.clientName) (jsToLower q))

/-- The `filteredMonthlyTrends` memo (src/components/ResultsDisplay.tsx
lines 97-102). -/
def filteredMonthlyTrends (q : String) (items : List ClientMonthlyTrend) : List ClientMonthlyTrend :=
  if q == "" then items
  else items.filter (fun r => jsIncludes (jsToLower r.clientName) (jsToLower q))

/-- The sortable columns: `type SortKey = keyof ClientMonthlyTrend`
(src/components/ResultsDisplay.tsx line 13). -/
inductive SortKey
  | clientName
  | month
  | totalCredit
  | totalDebit
  | netChange
deriving DecidableEq

/-- The two sort directions of `sortConfig`. -/
inductive Direction
  | ascending
  | descending
deriving DecidableEq

/-- The comparator body `a[key] < b[key] ? (asc ? -1 : 1) : a[key] > b[key] ?
(asc ? 1 : -1) : 0` (src/components/ResultsDisplay.tsx lines 107-114), for a
single already-projected key value. -/
def cmpVal {β : Type} [LinearOrder β] (dir : Direction) (x y : β) : Int :=
  if x < y then (match dir with | .ascending => -1 | .descending => 1)
  else if y < x then (match dir with | .ascending => 1 | .descending => -1)
  else 0

/-- The full comparator of `sortedMonthlyTrends`, dispatching on the sort key. -/
def trendCmp (k : SortKey) (dir : Direction) (a b : ClientMonthlyTrend) : Int :=
  match k with
  | .clientName => cmpVal dir a.clientName b.clientName
  | .month => cmpVal dir a.month b.month
  | .totalCredit => cmpVal dir a.totalCredit b.totalCredit
  | .totalDebit => cmpVal dir a.totalDebit b.totalDebit
  | .netChange => cmpVal dir a.netChange b.netChange

/-- The boolean order induced by the comparator, as used by a stable sort. -/
def trendLE (k : SortKey) (dir : Direction) (a b : ClientMonthlyTrend) : Bool :=
  decide (trendCmp k dir a b ≤ 0)

/-- The `sortedMonthlyTrends` memo (src/components/ResultsDisplay.tsx lines
104-118): copy the list; when a sort config is set, stable-sort it by the
comparator. -/
def sortedMonthlyTrends (cfg : Option (SortKey × Direction))
    (items : List ClientMonthlyTrend) : List ClientMonthlyTrend :=
  match cfg with
  | none => items
  | some (k, dir) => items.mergeSort (trendLE k dir)

/-- The `fullGrandTotals` memo (src/components/ResultsDisplay.tsx lines
120-126): reduce over all (unfiltered) summaries. -/
def fullGrandTotals (summaries : List ClientSummary) : ℚ × ℚ :=
  summaries.foldl (fun acc s => (acc.1 + s.totalCredit, acc.2 + s.totalDebit)) (0, 0)

/-- The `balanceVerification` memo (src/components/ResultsDisplay.tsx lines
139-147): null when there is no analysis result, otherwise the calculated
closing balance, the difference to the stated closing balance and the
tolerance check `Math.abs(difference) < 0.01`. -/
def verify : Option (ℚ × ℚ × List ClientSummary) → Option BalanceVerification
  | none => none
  | some (opening, closing, summaries) =>
    let g := fullGrandTotals summaries
    let calculatedClosing := opening + g.1 - g.2
    let difference := calculatedClosing - closing
    some ⟨calculatedClosing, difference, decide (|difference| < 1 / 100)⟩

/-- The `requestSort` click handler (src/components/ResultsDisplay.tsx lines
160-167): ascending unless the clicked key is already sorted ascending. -/
def requestSort (cfg : Option (SortKey × Direction)) (k : SortKey) : SortKey × Direction :=
  let dir : Direction :=
    match cfg with
    | some c => if c.1 = k ∧ c.2 = Direction.ascending then .descending else .ascending
    | none => .ascending
  (k, dir)

/-- All memoized values of the results display for a given analysis result,
search query and sort config (src/components/ResultsDisplay.tsx lines 48-147),
collected in one record so that dependence on the query is explicit. -/
structure DisplayState where
  clientSummaries : List ClientSummary
  monthlyTrends : List ClientMonthlyTrend
  filteredSummaries : List ClientSummary
  filteredTrends : List ClientMonthlyTrend
  sortedTrends : List ClientMonthlyTrend
  grandTotals : ℚ × ℚ
  balance : Option BalanceVerification

/-- The derivation pipeline of the results display component: each field is
computed exactly as the corresponding memo computes it. -/
def resultsDisplayState (r : AnalysisResult) (q : String)
    (cfg : Option (SortKey × Direction)) : DisplayState :=
  let cs := clientSummariesOf r.transactions
  let mt := monthlyTrendsOf r.transactions
  let fcs := filteredClientSummaries q cs
  let fmt := filteredMonthlyTrends q mt
  let smt := sortedMonthlyTrends cfg fmt
  let g := fullGrandTotals cs
  ⟨cs, mt, fcs, fmt, smt, g, verify (some (r.openingBalance, r.closingBalance, cs))⟩

/-- The four payment statuses of `PaymentStatus.status` (src/App.tsx line 717). -/
inductive PayStatus
  | paid
  | notPaid
  | partialPayment
  | exceeded
deriving DecidableEq

/-- src/App.tsx `ExpectedPayment` (passthrough columns omitted; no claim
mentions them). -/
structure ExpectedPayment where
  clientName : String
  amount : ℚ
deriving DecidableEq

/-- src/App.tsx `PaymentStatus` (lines 713-720), passthrough columns omitted. -/
structure PaymentStatus where
  clientName : String
  expectedAmount : ℚ
  paidAmount : ℚ
  status : PayStatus
  difference : ℚ
deriving DecidableEq

/-- Modelled from the spec: the reconciler's name normalization, "joined
against the matching ClientSummary by case-insensitive, whitespace-trimmed
name equality" (spec §3, §4.3). The reconciler implementation itself is not
among the provided source files; only its record types and consumers are. -/
def normalizeName (s : String) : String :=
  jsToLower (jsTrim s)

/-- Modelled from the spec: one reconciliation row (spec §4.3): `paidAmount`
is the matching summary's `totalCredit` or 0, `difference = paidAmount −
expectedAmount`, and the status cascade is evaluated in the spec's exact
order with the 0.01 tolerance. -/
def reconcileOne (summaries : List ClientSummary) (e : ExpectedPayment) : PaymentStatus :=
  let paidAmount : ℚ :=
    (summaries.find? (fun s => normalizeName s.clientName == normalizeName e.clientName)).elim
      0 (fun s => s.totalCredit)
  let difference := paidAmount - e.amount
  let status : PayStatus :=
    if paidAmount = 0 then .notPaid
    else if |difference| < 1 / 100 then .paid
    else if difference < 0 then .partialPayment
    else .exceeded
  ⟨e.clientName, e.amount, paidAmount, status, difference⟩

/-- Modelled from the spec: `reconcile(summaries, expected)` (spec §4.3),
one output row per expected payment, in input order. -/
def reconcile (summaries : List ClientSummary) (expected : List ExpectedPayment) :
    List PaymentStatus :=
  expected.map (reconcileOne summaries)

/-- Lookup of the (unique) summary row for a client name in the summary map. -/
def lookupSummary (ts : List ClientTransaction) (n : String) : Option ClientSummary :=
  (processSummariesMap ts).find? (fun s => s.clientName == n)

/-- Observer: the aggregated `totalCredit` of a client, 0 when it has no row. -/
def summaryCredit (ts : List ClientTransaction) (n : String) : ℚ :=
  match lookupSummary ts n with
  | some s => s.totalCredit
  | none => 0

/-- Observer: the aggregated `creditCount` of a client, 0 when it has no row. -/
def summaryCreditCount (ts : List ClientTransaction) (n : String) : ℕ :=
  match lookupSummary ts n with
  | some s => s.creditCount
  | none => 0

/-- Observer: the aggregated `totalDebit` of a client, 0 when it has no row. -/
def summaryDebit (ts : List ClientTransaction) (n : String) : ℚ :=
  match lookupSummary ts n with
  | some s => s.totalDebit
  | none => 0

/-- Observer: the aggregated `debitCount` of a client, 0 when it has no row. -/
def summaryDebitCount (ts : List ClientTransaction) (n : String) : ℕ :=
  match lookupSummary ts n with
  | some s => s.debitCount
  | none => 0

/-- Observer: the aggregated `netTotal` of a client, 0 when it has no row. -/
def summaryNet (ts : List ClientTransaction) (n : String) : ℚ :=
  match lookupSummary ts n with
  | some s => s.netTotal
  | none => 0

/-- Lookup of the trend row for a concatenated `clientName|month` key. -/
def lookupTrend (ts : List ClientTransaction) (k : String) : Option ClientMonthlyTrend :=
  (monthlyTrendsOf ts).find? (fun r => trendRowKey r == k)

/-- Observer: the `totalCredit` of a trend row, 0 when the row is absent. -/
def trendCredit (ts : List ClientTransaction) (k : String) : ℚ :=
  match lookupTrend ts k with
  | some r => r.totalCredit
  | none => 0

/-- Observer: the `totalDebit` of a trend row, 0 when the row is absent. -/
def trendDebit (ts : List ClientTransaction) (k : String) : ℚ :=
  match lookupTrend ts k with
  | some r => r.totalDebit
  | none => 0

/-- The sum of the amounts of all credit transactions of a list. -/
def creditTotalOf (ts : List ClientTransaction) : ℚ :=
  ((ts.filter (fun t => t.type == TxType.credit)).map ClientTransaction.amount).sum

/-- The sum of the amounts of all debit transactions of a list. -/
def debitTotalOf (ts : List ClientTransaction) : ℚ :=
  ((ts.filter (fun t => t.type == TxType.debit)).map ClientTransaction.amount).sum

/-- Balance verification computed directly from the transaction list instead
of from the aggregated summaries; the comparison definition for the
grand-totals homomorphism claim. -/
def balanceFromTransactions (opening closing : ℚ) (ts : List ClientTransaction) :
    BalanceVerification :=
  let calculatedClosing := opening + creditTotalOf ts - debitTotalOf ts
  let difference := calculatedClosing - closing
  ⟨calculatedClosing, difference, decide (|difference| < 1 / 100)⟩

/-- The sort-key projection used to state tie/distinctness of key values:
string-valued keys land in the left summand, numeric ones in the right. -/
def keyValOf (k : SortKey) (t : ClientMonthlyTrend) : String ⊕ ℚ :=
  match k with
  | .clientName => .inl t.clientName
  | .month => .inl t.month
  | .totalCredit => .inr t.totalCredit
  | .totalDebit => .inr t.totalDebit
  | .netChange => .inr t.netChange

/-! ### Generic list helpers -/

/-- The first match of a predicate commutes with a map that preserves the
predicate's verdict on every element. -/
theorem find?_map_comm {α : Type} {g : α → α} {p : α → Bool} (hp : ∀ x, p (g x) = p x) :
    ∀ m : List α, (m.map g).find? p = (m.find? p).map g := by
  intro m
  induction m with
  | nil => rfl
  | cons a m ih =>
    by_cases h : p a = true
    · rw [List.map_cons, List.find?_cons_of_pos _ ((hp a).trans h),
        List.find?_cons_of_pos _ h, Option.map_some']
    · rw [List.map_cons, List.find?_cons_of_neg _ (by simp [hp a, h]),
        List.find?_cons_of_neg _ h, ih]

/-- Summing a characteristic-style map over a list in which no element
satisfies the key predicate gives zero. -/
theorem sum_map_ite_zero {α : Type} {M : Type} [AddCommMonoid M] (p : α → Bool) (c : α → M) :
    ∀ m : List α, (∀ x ∈ m, p x = false) → (m.map (fun x => if p x = true then c x else 0)).sum = 0 := by
  intro m
  induction m with
  | nil => intro _; rfl
  | cons a m ih =>
    intro h
    have ha := h a (by simp)
    simp [ha, ih (fun x hx => h x (by simp [hx]))]

/-- Summing a characteristic-style map over a list that contains exactly one
element satisfying the key predicate picks out that element's contribution. -/
theorem sum_map_ite_single {α : Type} {M : Type} [AddCommMonoid M] (p : α → Bool) (c : α → M) :
    ∀ m : List α, m.countP p = 1 →
      (m.map (fun x => if p x = true then c x else 0)).sum =
        (m.find? p).elim 0 c := by
  intro m
  induction m with
  | nil => intro h; simp [List.countP_nil] at h
  | cons a m ih =>
    intro h
    by_cases ha : p a = true
    · have hm0 : m.countP p = 0 := by
        rw [List.countP_cons, ha] at h
        simpa using h
      have hall : ∀ x ∈ m, p x = false := by
        intro x hx
        by_contra hc
        have hx1 : p x = true := by
          cases hpx : p x with
          | false => exact absurd hpx hc
          | true => rfl
        have : 0 < m.countP p := List.countP_pos_iff.mpr ⟨x, hx, hx1⟩
        omega
      rw [List.map_cons, List.sum_cons, List.find?_cons_of_pos _ ha]
      simp [ha, sum_map_ite_zero p c m hall]
    · have hm1 : m.countP p = 1 := by
        have haf : p a = false := eq_false_of_ne_true ha
        rw [List.countP_cons, haf] at h
        simpa using h
      rw [List.map_cons, List.sum_cons, List.find?_cons_of_neg _ ha]
      simp [ha, ih hm1]

/-! ### Summary aggregation lemmas -/

/-- Updating a summary never changes its key. -/
theorem applyTxToSummary_clientName (s : ClientSummary) (t : ClientTransaction) :
    (applyTxToSummary s t).clientName = s.clientName := by
  cases h : t.type <;> simp [applyTxToSummary, h]

/-- The credit total after one update. -/
theorem applyTxToSummary_totalCredit (s : ClientSummary) (t : ClientTransaction) :
    (applyTxToSummary s t).totalCredit =
      s.totalCredit + (if t.type = .credit then t.amount else 0) := by
  cases h : t.type <;> simp [applyTxToSummary, h]

/-- The credit count after one update. -/
theorem applyTxToSummary_creditCount (s : ClientSummary) (t : ClientTransaction) :
    (applyTxToSummary s t).creditCount =
      s.creditCount + (if t.type = .credit then 1 else 0) := by
  cases h : t.type <;> simp [applyTxToSummary, h]

/-- The debit total after one update. -/
theorem applyTxToSummary_totalDebit (s : ClientSummary) (t : ClientTransaction) :
    (applyTxToSummary s t).totalDebit =
      s.totalDebit + (if t.type = .debit then t.amount else 0) := by
  cases h : t.type <;> simp [applyTxToSummary, h]

/-- The debit count after one update. -/
theorem applyTxToSummary_debitCount (s : ClientSummary) (t : ClientTransaction) :
    (applyTxToSummary s t).debitCount =
      s.debitCount + (if t.type = .debit then 1 else 0) := by
  cases h : t.type <;> simp [applyTxToSummary, h]

/-- Every update re-establishes `netTotal = totalCredit - totalDebit`. -/
theorem applyTxToSummary_netTotal (s : ClientSummary) (t : ClientTransaction) :
    (applyTxToSummary s t).netTotal =
      (applyTxToSummary s t).totalCredit - (applyTxToSummary s t).totalDebit := by
  cases h : t.type <;> simp [applyTxToSummary, h]

/-- Unrolling the summary fold by one transaction from the right. -/
theorem processSummariesMap_concat (ts : List ClientTransaction) (t : ClientTransaction) :
    processSummariesMap (ts ++ [t]) = summStep (processSummariesMap ts) t := by
  simp [processSummariesMap, List.foldl_append]

/-- The key list after one summary step: unchanged when the client already has
a row, extended by the new client name otherwise. -/
theorem summStep_keys (m : List ClientSummary) (t : ClientTransaction) :
    (summStep m t).map ClientSummary.clientName =
      if m.any (fun s => s.clientName == t.clientName) then
        m.map ClientSummary.clientName
      else
        m.map ClientSummary.clientName ++ [t.clientName] := by
  by_cases h : m.any (fun s => s.clientName == t.clientName) = true
  · rw [summStep, if_pos h, if_pos h, List.map_map]
    refine List.map_congr_left ?_
    intro s _
    by_cases hs : (s.clientName == t.clientName) = true
    · have h1 : s.clientName = t.clientName := beq_iff_eq.mp hs
      simp [h1, applyTxToSummary_clientName]
    · have hne : s.clientName ≠ t.clientName := fun hc => hs (beq_iff_eq.mpr hc)
      simp [hne]
  · rw [summStep, if_neg h, if_neg h, List.map_append]
    simp [applyTxToSummary_clientName, emptySummaryFor]

/-- A client has a summary row exactly when it appears in the transactions. -/
theorem mem_keys_processSummariesMap (ts : List ClientTransaction) (n : String) :
    n ∈ (processSummariesMap ts).map ClientSummary.clientName ↔
      n ∈ ts.map ClientTransaction.clientName := by
  induction ts using List.reverseRecOn generalizing n with
  | nil => simp [processSummariesMap]
  | append_singleton ts t ih =>
    rw [processSummariesMap_concat, summStep_keys]
    by_cases h : (processSummariesMap ts).any (fun s => s.clientName == t.clientName) = true
    · rw [if_pos h]
      have ht : t.clientName ∈ ts.map ClientTransaction.clientName := by
        rcases List.any_eq_true.mp h with ⟨s, hs, hn⟩
        have hsn : s.clientName = t.clientName := beq_iff_eq.mp hn
        have hmem : s.clientName ∈ (processSummariesMap ts).map ClientSummary.clientName :=
          List.mem_map.mpr ⟨s, hs, rfl⟩
        rw [hsn] at hmem
        exact (ih t.clientName).mp hmem
      rw [ih n]
      simp only [List.map_append, List.map_cons, List.map_nil, List.mem_append,
        List.mem_cons, List.not_mem_nil, or_false]
      constructor
      · exact Or.inl
      · rintro (hl | rfl)
        · exact hl
        · exact ht
    · rw [if_neg h]
      simp [ih n]

/-- The summary map never holds two rows for the same client. -/
theorem keys_nodup_processSummariesMap (ts : List ClientTransaction) :
    ((processSummariesMap ts).map ClientSummary.clientName).Nodup := by
  induction ts using List.reverseRecOn with
  | nil => simp [processSummariesMap]
  | append_singleton ts t ih =>
    rw [processSummariesMap_concat, summStep_keys]
    by_cases h : (processSummariesMap ts).any (fun s => s.clientName == t.clientName) = true
    · rwa [if_pos h]
    · rw [if_neg h]
      have hnotin : t.clientName ∉ (processSummariesMap ts).map ClientSummary.clientName := by
        intro hc
        rcases List.mem_map.mp hc with ⟨s, hs, hn⟩
        exact h (List.any_eq_true.mpr ⟨s, hs, beq_iff_eq.mpr hn⟩)
      refine List.Nodup.append ih (List.nodup_singleton _) ?_
      intro a ha hb
      rw [List.mem_singleton] at hb
      subst hb
      exact hnotin ha

/-- Unrolling the per-client lookup by one transaction from the right: the
affected client's row is updated (starting from the zero entry when absent),
every other client's row is untouched. -/
theorem lookupSummary_concat (ts : List ClientTransaction) (t : ClientTransaction) (n : String) :
    lookupSummary (ts ++ [t]) n =
      if t.clientName = n then
        some (applyTxToSummary ((lookupSummary ts n).getD (emptySummaryFor t.clientName)) t)
      else lookupSummary ts n := by
  unfold lookupSummary
  rw [processSummariesMap_concat]
  set m := processSummariesMap ts with hm
  by_cases hany : m.any (fun s => s.clientName == t.clientName) = true
  · rw [summStep, if_pos hany]
    have hpres : ∀ s : ClientSummary,
        (((if s.clientName == t.clientName then applyTxToSummary s t else s).clientName == n)) =
          ((s.clientName == n)) := by
      intro s
      by_cases hs : (s.clientName == t.clientName) = true
      · simp [hs, applyTxToSummary_clientName]
      · simp [hs]
    rw [find?_map_comm hpres m]
    by_cases heq : t.clientName = n
    · subst heq
      rcases hfind : m.find? (fun s => s.clientName == t.clientName) with _ | s
      · exfalso
        rcases List.any_eq_true.mp hany with ⟨s, hs, hn⟩
        exact (List.find?_eq_none.mp hfind s hs) hn
      · have hkey := List.find?_some hfind
        have heq2 : s.clientName = t.clientName := beq_iff_eq.mp hkey
        rw [if_pos rfl, hfind]
        simp [heq2]
    · rw [if_neg heq]
      rcases hfind : m.find? (fun s => s.clientName == n) with _ | s
      · simp [hfind]
      · have hkey := List.find?_some hfind
        have hsn : s.clientName = n := beq_iff_eq.mp hkey
        have hne : s.clientName ≠ t.clientName := by
          rw [hsn]
          exact fun h => heq h.symm
        simp [hfind, hne]
  · rw [summStep, if_neg hany, List.find?_append]
    by_cases heq : t.clientName = n
    · subst heq
      have hmnone : m.find? (fun s => s.clientName == t.clientName) = none := by
        rw [List.find?_eq_none]
        intro s hs hc
        exact hany (List.any_eq_true.mpr ⟨s, hs, hc⟩)
      have hnew : ((applyTxToSummary (emptySummaryFor t.clientName) t).clientName == t.clientName) = true := by
        simp [applyTxToSummary_clientName, emptySummaryFor]
      rw [if_pos rfl, hmnone,
        @List.find?_cons_of_pos ClientSummary (fun s => s.clientName == t.clientName)
          (applyTxToSummary (emptySummaryFor t.clientName) t) [] hnew]
      simp
    · rw [if_neg heq]
      have hnewkey : ((applyTxToSummary (emptySummaryFor t.clientName) t).clientName == n) = false := by
        rw [applyTxToSummary_clientName]
        simp [emptySummaryFor]
        exact heq
      rw [@List.find?_cons_of_neg ClientSummary (fun s => s.clientName == n)
          (applyTxToSummary (emptySummaryFor t.clientName) t) [] (by simp [hnewkey])]
      simp

/-- Appending one transaction adds its amount to the credit total of exactly
its own client. -/
theorem summaryCredit_concat (ts : List ClientTransaction) (t : ClientTransaction) (n : String) :
    summaryCredit (ts ++ [t]) n =
      summaryCredit ts n + (if t.clientName = n ∧ t.type = .credit then t.amount else 0) := by
  unfold summaryCredit
  rw [lookupSummary_concat]
  by_cases heq : t.clientName = n
  · rw [if_pos heq]
    rcases hfind : lookupSummary ts n with _ | s
    · simp [applyTxToSummary_totalCredit, emptySummaryFor, heq]
    · simp [applyTxToSummary_totalCredit, heq]
  · rw [if_neg heq]
    simp [heq]

/-- Appending one transaction bumps the credit count of exactly its own client. -/
theorem summaryCreditCount_concat (ts : List ClientTransaction) (t : ClientTransaction) (n : String) :
    summaryCreditCount (ts ++ [t]) n =
      summaryCreditCount ts n + (if t.clientName = n ∧ t.type = .credit then 1 else 0) := by
  unfold summaryCreditCount
  rw [lookupSummary_concat]
  by_cases heq : t.clientName = n
  · rw [if_pos heq]
    rcases hfind : lookupSummary ts n with _ | s
    · simp [applyTxToSummary_creditCount, emptySummaryFor, heq]
    · simp [applyTxToSummary_creditCount, heq]
  · rw [if_neg heq]
    simp [heq]

/-- Appending one transaction adds its amount to the debit total of exactly
its own client. -/
theorem summaryDebit_concat (ts : List ClientTransaction) (t : ClientTransaction) (n : String) :
    summaryDebit (ts ++ [t]) n =
      summaryDebit ts n + (if t.clientName = n ∧ t.type = .debit then t.amount else 0) := by
  unfold summaryDebit
  rw [lookupSummary_concat]
  by_cases heq : t.clientName = n
  · rw [if_pos heq]
    rcases hfind : lookupSummary ts n with _ | s
    · simp [applyTxToSummary_totalDebit, emptySummaryFor, heq]
    · simp [applyTxToSummary_totalDebit, heq]
  · rw [if_neg heq]
    simp [heq]

/-- Appending one transaction bumps the debit count of exactly its own client. -/
theorem summaryDebitCount_concat (ts : List ClientTransaction) (t : ClientTransaction) (n : String) :
    summaryDebitCount (ts ++ [t]) n =
      summaryDebitCount ts n + (if t.clientName = n ∧ t.type = .debit then 1 else 0) := by
  unfold summaryDebitCount
  rw [lookupSummary_concat]
  by_cases heq : t.clientName = n
  · rw [if_pos heq]
    rcases hfind : lookupSummary ts n with _ | s
    · simp [applyTxToSummary_debitCount, emptySummaryFor, heq]
    · simp [applyTxToSummary_debitCount, heq]
  · rw [if_neg heq]
    simp [heq]

/-- Every row of the summary map satisfies `netTotal = totalCredit - totalDebit`. -/
theorem netTotal_invariant (ts : List ClientTransaction) :
    ∀ s ∈ processSummariesMap ts, s.netTotal = s.totalCredit - s.totalDebit := by
  induction ts using List.reverseRecOn with
  | nil => intro s hs; simp [processSummariesMap] at hs
  | append_singleton ts t ih =>
    intro s hs
    rw [processSummariesMap_concat, summStep] at hs
    by_cases hany : (processSummariesMap ts).any (fun x => x.clientName == t.clientName) = true
    · rw [if_pos hany] at hs
      rcases List.mem_map.mp hs with ⟨r, hr, hrs⟩
      by_cases hk : (r.clientName == t.clientName) = true
      · rw [if_pos hk] at hrs
        rw [← hrs]
        exact applyTxToSummary_netTotal r t
      · rw [if_neg hk] at hrs
        rw [← hrs]
        exact ih r hr
    · rw [if_neg hany] at hs
      rcases List.mem_append.mp hs with hl | hr
      · exact ih s hl
      · rw [List.mem_singleton] at hr
        rw [hr]
        exact applyTxToSummary_netTotal _ t

/-- The net observer is the difference of the credit and debit observers. -/
theorem summaryNet_eq (ts : List ClientTransaction) (n : String) :
    summaryNet ts n = summaryCredit ts n - summaryDebit ts n := by
  unfold summaryNet summaryCredit summaryDebit
  rcases hfind : lookupSummary ts n with _ | s
  · simp
  · exact netTotal_invariant ts s (List.mem_of_find?_eq_some hfind)

/-- Closed form: the credit total of a client is the sum of the amounts of its
credit transactions (dates and everything else are irrelevant). -/
theorem summaryCredit_closed (ts : List ClientTransaction) (n : String) :
    summaryCredit ts n =
      ((ts.filter (fun t => t.clientName == n && t.type == TxType.credit)).map
        ClientTransaction.amount).sum := by
  induction ts using List.reverseRecOn with
  | nil => simp [summaryCredit, lookupSummary, processSummariesMap]
  | append_singleton ts t ih =>
    rw [summaryCredit_concat, ih, List.filter_append, List.map_append, List.sum_append]
    by_cases hp : (t.clientName == n && t.type == TxType.credit) = true
    · have h1 : t.clientName = n ∧ t.type = .credit := by simpa using hp
      simp [List.filter_cons, hp, h1]
    · have h1 : ¬(t.clientName = n ∧ t.type = .credit) := by
        intro hc
        exact hp (by simp [hc.1, hc.2])
      simp [List.filter_cons, hp, h1]

/-- Closed form: the credit count of a client is the number of its credit
transactions. -/
theorem summaryCreditCount_closed (ts : List ClientTransaction) (n : String) :
    summaryCreditCount ts n =
      (ts.filter (fun t => t.clientName == n && t.type == TxType.credit)).length := by
  induction ts using List.reverseRecOn with
  | nil => simp [summaryCreditCount, lookupSummary, processSummariesMap]
  | append_singleton ts t ih =>
    rw [summaryCreditCount_concat, ih, List.filter_append, List.length_append]
    by_cases hp : (t.clientName == n && t.type == TxType.credit) = true
    · have h1 : t.clientName = n ∧ t.type = .credit := by simpa using hp
      simp [List.filter_cons, hp, h1]
    · have h1 : ¬(t.clientName = n ∧ t.type = .credit) := by
        intro hc
        exact hp (by simp [hc.1, hc.2])
      simp [List.filter_cons, hp, h1]

/-- Closed form: the debit total of a client is the sum of the amounts of its
debit transactions. -/
theorem summaryDebit_closed (ts : List ClientTransaction) (n : String) :
    summaryDebit ts n =
      ((ts.filter (fun t => t.clientName == n && t.type == TxType.debit)).map
        ClientTransaction.amount).sum := by
  induction ts using List.reverseRecOn with
  | nil => simp [summaryDebit, lookupSummary, processSummariesMap]
  | append_singleton ts t ih =>
    rw [summaryDebit_concat, ih, List.filter_append, List.map_append, List.sum_append]
    by_cases hp : (t.clientName == n && t.type == TxType.debit) = true
    · have h1 : t.clientName = n ∧ t.type = .debit := by simpa using hp
      simp [List.filter_cons, hp, h1]
    · have h1 : ¬(t.clientName = n ∧ t.type = .debit) := by
        intro hc
        exact hp (by simp [hc.1, hc.2])
      simp [List.filter_cons, hp, h1]

/-- Closed form: the debit count of a client is the number of its debit
transactions. -/
theorem summaryDebitCount_closed (ts : List ClientTransaction) (n : String) :
    summaryDebitCount ts n =
      (ts.filter (fun t => t.clientName == n && t.type == TxType.debit)).length := by
  induction ts using List.reverseRecOn with
  | nil => simp [summaryDebitCount, lookupSummary, processSummariesMap]
  | append_singleton ts t ih =>
    rw [summaryDebitCount_concat, ih, List.filter_append, List.length_append]
    by_cases hp : (t.clientName == n && t.type == TxType.debit) = true
    · have h1 : t.clientName = n ∧ t.type = .debit := by simpa using hp
      simp [List.filter_cons, hp, h1]
    · have h1 : ¬(t.clientName = n ∧ t.type = .debit) := by
        intro hc
        exact hp (by simp [hc.1, hc.2])
      simp [List.filter_cons, hp, h1]

/-- Appending one transaction to a list adds its amount to the credit total
of the list when it is a credit. -/
theorem creditTotalOf_concat (ts : List ClientTransaction) (t : ClientTransaction) :
    creditTotalOf (ts ++ [t]) =
      creditTotalOf ts + (if t.type = .credit then t.amount else 0) := by
  unfold creditTotalOf
  rw [List.filter_append, List.map_append, List.sum_append]
  by_cases h : t.type = .credit
  · simp [List.filter_cons, h]
  · simp [List.filter_cons, h]

/-- Appending one transaction to a list adds its amount to the debit total
of the list when it is a debit. -/
theorem debitTotalOf_concat (ts : List ClientTransaction) (t : ClientTransaction) :
    debitTotalOf (ts ++ [t]) =
      debitTotalOf ts + (if t.type = .debit then t.amount else 0) := by
  unfold debitTotalOf
  rw [List.filter_append, List.map_append, List.sum_append]
  by_cases h : t.type = .debit
  · simp [List.filter_cons, h]
  · simp [List.filter_cons, h]

/-- In a map whose keys are distinct, a present key is hit by exactly one row. -/
theorem countP_key_eq_one (m : List ClientSummary) (k : String)
    (hnd : (m.map ClientSummary.clientName).Nodup)
    (hany : m.any (fun s => s.clientName == k) = true) :
    m.countP (fun s => s.clientName == k) = 1 := by
  induction m with
  | nil => simp at hany
  | cons a m ih =>
    rw [List.map_cons, List.nodup_cons] at hnd
    by_cases hk : (a.clientName == k) = true
    · have hak : a.clientName = k := beq_iff_eq.mp hk
      have hzero : m.countP (fun s => s.clientName == k) = 0 := by
        rw [List.countP_eq_zero]
        intro s hs hc
        have : s.clientName = k := beq_iff_eq.mp hc
        exact hnd.1 (List.mem_map.mpr ⟨s, hs, by rw [this, hak]⟩)
      rw [List.countP_cons, hk, hzero]
      simp
    · have hany' : m.any (fun s => s.clientName == k) = true := by
        rcases List.any_eq_true.mp hany with ⟨s, hs, hp⟩
        rcases List.mem_cons.mp hs with rfl | hsm
        · exact absurd hp hk
        · exact List.any_eq_true.mpr ⟨s, hsm, hp⟩
      have hkf : (a.clientName == k) = false := eq_false_of_ne_true hk
      rw [List.countP_cons, hkf]
      simpa using ih hnd.2 hany'

/-- The sum of `totalCredit` over all summary rows is the sum of all credit
transaction amounts. -/
theorem sum_rows_totalCredit (ts : List ClientTransaction) :
    ((processSummariesMap ts).map ClientSummary.totalCredit).sum = creditTotalOf ts := by
  induction ts using List.reverseRecOn with
  | nil => simp [processSummariesMap, creditTotalOf]
  | append_singleton ts t ih =>
    rw [processSummariesMap_concat, creditTotalOf_concat, summStep, ← ih]
    by_cases hany : (processSummariesMap ts).any (fun s => s.clientName == t.clientName) = true
    · rw [if_pos hany, List.map_map]
      have hpt : ∀ s ∈ processSummariesMap ts,
          (ClientSummary.totalCredit ∘ fun s =>
            if s.clientName == t.clientName then applyTxToSummary s t else s) s =
          (fun s => s.totalCredit +
            (if (s.clientName == t.clientName) = true then
              (if t.type = .credit then t.amount else 0) else 0)) s := by
        intro s _
        by_cases hs : (s.clientName == t.clientName) = true
        · have h1 : s.clientName = t.clientName := beq_iff_eq.mp hs
          simp [hs, h1, applyTxToSummary_totalCredit]
        · have h1 : s.clientName ≠ t.clientName := fun hc => hs (beq_iff_eq.mpr hc)
          simp [hs, h1]
      rw [List.map_congr_left hpt, List.sum_map_add]
      have hone := countP_key_eq_one (processSummariesMap ts) t.clientName
        (keys_nodup_processSummariesMap ts) hany
      rw [sum_map_ite_single _ _ _ hone]
      rcases hfind : (processSummariesMap ts).find? (fun s => s.clientName == t.clientName)
          with _ | s
      · exfalso
        rcases List.any_eq_true.mp hany with ⟨s, hs, hp⟩
        exact (List.find?_eq_none.mp hfind s hs) hp
      · simp [hfind]
    · rw [if_neg hany, List.map_append, List.sum_append]
      simp [applyTxToSummary_totalCredit, emptySummaryFor]

/-- The sum of `totalDebit` over all summary rows is the sum of all debit
transaction amounts. -/
theorem sum_rows_totalDebit (ts : List ClientTransaction) :
    ((processSummariesMap ts).map ClientSummary.totalDebit).sum = debitTotalOf ts := by
  induction ts using List.reverseRecOn with
  | nil => simp [processSummariesMap, debitTotalOf]
  | append_singleton ts t ih =>
    rw [processSummariesMap_concat, debitTotalOf_concat, summStep, ← ih]
    by_cases hany : (processSummariesMap ts).any (fun s => s.clientName == t.clientName) = true
    · rw [if_pos hany, List.map_map]
      have hpt : ∀ s ∈ processSummariesMap ts,
          (ClientSummary.totalDebit ∘ fun s =>
            if s.clientName == t.clientName then applyTxToSummary s t else s) s =
          (fun s => s.totalDebit +
            (if (s.clientName == t.clientName) = true then
              (if t.type = .debit then t.amount else 0) else 0)) s := by
        intro s _
        by_cases hs : (s.clientName == t.clientName) = true
        · have h1 : s.clientName = t.clientName := beq_iff_eq.mp hs
          simp [hs, h1, applyTxToSummary_totalDebit]
        · have h1 : s.clientName ≠ t.clientName := fun hc => hs (beq_iff_eq.mpr hc)
          simp [hs, h1]
      rw [List.map_congr_left hpt, List.sum_map_add]
      have hone := countP_key_eq_one (processSummariesMap ts) t.clientName
        (keys_nodup_processSummariesMap ts) hany
      rw [sum_map_ite_single _ _ _ hone]
      rcases hfind : (processSummariesMap ts).find? (fun s => s.clientName == t.clientName)
          with _ | s
      · exfalso
        rcases List.any_eq_true.mp hany with ⟨s, hs, hp⟩
        exact (List.find?_eq_none.mp hfind s hs) hp
      · simp [hfind]
    · rw [if_neg hany, List.map_append, List.sum_append]
      simp [applyTxToSummary_totalDebit, emptySummaryFor]

/-- Sorting the summary rows for display does not change any summed field. -/
theorem sum_map_clientSummariesOf (f : ClientSummary → ℚ) (ts : List ClientTransaction) :
    ((clientSummariesOf ts).map f).sum = ((processSummariesMap ts).map f).sum :=
  ((List.mergeSort_perm (processSummariesMap ts) localeNameLe).map f).sum_eq

/-- The reduce of `fullGrandTotals`, started from an arbitrary accumulator. -/
theorem fullGrandTotals_foldl (ss : List ClientSummary) : ∀ a b : ℚ,
    ss.foldl (fun acc s => (acc.1 + s.totalCredit, acc.2 + s.totalDebit)) (a, b) =
      (a + (ss.map ClientSummary.totalCredit).sum, b + (ss.map ClientSummary.totalDebit).sum) := by
  induction ss with
  | nil => intro a b; simp
  | cons s ss ih =>
    intro a b
    rw [List.foldl_cons, ih]
    simp [add_assoc]

/-- `fullGrandTotals` is the pair of field sums over all summaries. -/
theorem fullGrandTotals_eq (ss : List ClientSummary) :
    fullGrandTotals ss =
      ((ss.map ClientSummary.totalCredit).sum, (ss.map ClientSummary.totalDebit).sum) := by
  unfold fullGrandTotals
  rw [fullGrandTotals_foldl]
  simp

/-! ### Trend aggregation lemmas -/

/-- Updating a trend row never changes its client name. -/
theorem applyTxToTrend_clientName (r : ClientMonthlyTrend) (t : ClientTransaction) :
    (applyTxToTrend r t).clientName = r.clientName := by
  cases h : t.type <;> simp [applyTxToTrend, h]

/-- Updating a trend row never changes its month. -/
theorem applyTxToTrend_month (r : ClientMonthlyTrend) (t : ClientTransaction) :
    (applyTxToTrend r t).month = r.month := by
  cases h : t.type <;> simp [applyTxToTrend, h]

/-- Updating a trend row never changes its key. -/
theorem applyTxToTrend_key (r : ClientMonthlyTrend) (t : ClientTransaction) :
    trendRowKey (applyTxToTrend r t) = trendRowKey r := by
  unfold trendRowKey
  rw [applyTxToTrend_clientName, applyTxToTrend_month]

/-- The credit total of a trend row after one update. -/
theorem applyTxToTrend_totalCredit (r : ClientMonthlyTrend) (t : ClientTransaction) :
    (applyTxToTrend r t).totalCredit =
      r.totalCredit + (if t.type = .credit then t.amount else 0) := by
  cases h : t.type <;> simp [applyTxToTrend, h]

/-- The debit total of a trend row after one update. -/
theorem applyTxToTrend_totalDebit (r : ClientMonthlyTrend) (t : ClientTransaction) :
    (applyTxToTrend r t).totalDebit =
      r.totalDebit + (if t.type = .debit then t.amount else 0) := by
  cases h : t.type <;> simp [applyTxToTrend, h]

/-- Unrolling the trend fold by one transaction from the right. -/
theorem monthlyTrendsOf_concat (ts : List ClientTransaction) (t : ClientTransaction) :
    monthlyTrendsOf (ts ++ [t]) = trendStep (monthlyTrendsOf ts) t := by
  simp [monthlyTrendsOf, List.foldl_append]

/-- A transaction with an invalid date leaves the trend map untouched. -/
theorem trendStep_invalid (m : List ClientMonthlyTrend) (t : ClientTransaction)
    (h : jsDateValid t.date = false) : trendStep m t = m := by
  simp [trendStep, h]

/-- The trend map is entirely determined by the valid-date transactions:
transactions with an invalid date contribute to no trend row. -/
theorem monthlyTrendsOf_filter_valid (ts : List ClientTransaction) :
    monthlyTrendsOf ts = monthlyTrendsOf (ts.filter (fun t => jsDateValid t.date)) := by
  suffices h : ∀ m : List ClientMonthlyTrend,
      ts.foldl trendStep m = (ts.filter (fun t => jsDateValid t.date)).foldl trendStep m by
    exact h []
  induction ts with
  | nil => intro m; rfl
  | cons t ts ih =>
    intro m
    by_cases hv : jsDateValid t.date = true
    · have hfc : List.filter (fun t => jsDateValid t.date) (t :: ts) =
          t :: List.filter (fun t => jsDateValid t.date) ts := by
        simp [List.filter_cons, hv]
      rw [List.foldl_cons, hfc, List.foldl_cons]
      exact ih (trendStep m t)
    · have hvf : jsDateValid t.date = false := eq_false_of_ne_true hv
      have hfc : List.filter (fun t => jsDateValid t.date) (t :: ts) =
          List.filter (fun t => jsDateValid t.date) ts := by
        simp [List.filter_cons, hvf]
      rw [List.foldl_cons, hfc, trendStep_invalid m t hvf]
      exact ih m

/-- Unrolling the per-key trend lookup by one valid-dated transaction from the
right: the row under the transaction's key is updated (starting from the zero
row when absent), every other row is untouched. -/
theorem lookupTrend_concat (ts : List ClientTransaction) (t : ClientTransaction)
    (hv : jsDateValid t.date = true) (n : String) :
    lookupTrend (ts ++ [t]) n =
      if trendKeyOf t = n then
        some (applyTxToTrend
          ((lookupTrend ts n).getD ⟨t.clientName, jsMonthOf t.date, 0, 0, 0⟩) t)
      else lookupTrend ts n := by
  unfold lookupTrend
  rw [monthlyTrendsOf_concat]
  set m := monthlyTrendsOf ts with hm
  rw [trendStep, if_pos hv]
  by_cases hany : m.any (fun r => trendRowKey r == trendKeyOf t) = true
  · rw [if_pos hany]
    have hpres : ∀ r : ClientMonthlyTrend,
        ((trendRowKey (if trendRowKey r == trendKeyOf t then applyTxToTrend r t else r) == n)) =
          ((trendRowKey r == n)) := by
      intro r
      by_cases hr : (trendRowKey r == trendKeyOf t) = true
      · simp [hr, applyTxToTrend_key]
      · simp [hr]
    rw [find?_map_comm hpres m]
    by_cases heq : trendKeyOf t = n
    · subst heq
      rcases hfind : m.find? (fun r => trendRowKey r == trendKeyOf t) with _ | r
      · exfalso
        rcases List.any_eq_true.mp hany with ⟨r, hr, hp⟩
        exact (List.find?_eq_none.mp hfind r hr) hp
      · have hkey := List.find?_some hfind
        have heq2 : trendRowKey r = trendKeyOf t := beq_iff_eq.mp hkey
        rw [if_pos rfl]
        simp [hfind, heq2]
    · rw [if_neg heq]
      rcases hfind : m.find? (fun r => trendRowKey r == n) with _ | r
      · simp [hfind]
      · have hkey := List.find?_some hfind
        have hrn : trendRowKey r = n := beq_iff_eq.mp hkey
        have hne : trendRowKey r ≠ trendKeyOf t := by
          rw [hrn]
          exact fun h => heq h.symm
        simp [hfind, hne]
  · rw [if_neg hany, List.find?_append]
    have hnewkeyval : trendRowKey (applyTxToTrend ⟨t.clientName, jsMonthOf t.date, 0, 0, 0⟩ t) =
        trendKeyOf t := by
      rw [applyTxToTrend_key]
      rfl
    by_cases heq : trendKeyOf t = n
    · subst heq
      have hmnone : m.find? (fun r => trendRowKey r == trendKeyOf t) = none := by
        rw [List.find?_eq_none]
        intro r hr hc
        exact hany (List.any_eq_true.mpr ⟨r, hr, hc⟩)
      have hnew : ((trendRowKey (applyTxToTrend ⟨t.clientName, jsMonthOf t.date, 0, 0, 0⟩ t)) ==
          trendKeyOf t) = true := by
        rw [hnewkeyval]
        exact beq_self_eq_true _
      rw [if_pos rfl, hmnone,
        @List.find?_cons_of_pos ClientMonthlyTrend (fun r => trendRowKey r == trendKeyOf t)
          (applyTxToTrend ⟨t.clientName, jsMonthOf t.date, 0, 0, 0⟩ t) [] hnew]
      simp
    · rw [if_neg heq]
      have hnewkey : ((trendRowKey (applyTxToTrend ⟨t.clientName, jsMonthOf t.date, 0, 0, 0⟩ t)) ==
          n) = false := by
        rw [hnewkeyval]
        exact beq_eq_false_iff_ne.mpr heq
      rw [@List.find?_cons_of_neg ClientMonthlyTrend (fun r => trendRowKey r == n)
          (applyTxToTrend ⟨t.clientName, jsMonthOf t.date, 0, 0, 0⟩ t) [] (by simp [hnewkey])]
      simp

/-- Appending one valid-dated transaction adds its amount to the credit total
of exactly its own (client, month) trend row. -/
theorem trendCredit_concat (ts : List ClientTransaction) (t : ClientTransaction)
    (hv : jsDateValid t.date = true) (n : String) :
    trendCredit (ts ++ [t]) n =
      trendCredit ts n + (if trendKeyOf t = n ∧ t.type = .credit then t.amount else 0) := by
  unfold trendCredit
  rw [lookupTrend_concat ts t hv]
  by_cases heq : trendKeyOf t = n
  · rw [if_pos heq]
    rcases hfind : lookupTrend ts n with _ | r
    · simp [applyTxToTrend_totalCredit, heq]
    · simp [applyTxToTrend_totalCredit, heq]
  · rw [if_neg heq]
    simp [heq]

/-- Appending one valid-dated transaction adds its amount to the debit total
of exactly its own (client, month) trend row. -/
theorem trendDebit_concat (ts : List ClientTransaction) (t : ClientTransaction)
    (hv : jsDateValid t.date = true) (n : String) :
    trendDebit (ts ++ [t]) n =
      trendDebit ts n + (if trendKeyOf t = n ∧ t.type = .debit then t.amount else 0) := by
  unfold trendDebit
  rw [lookupTrend_concat ts t hv]
  by_cases heq : trendKeyOf t = n
  · rw [if_pos heq]
    rcases hfind : lookupTrend ts n with _ | r
    · simp [applyTxToTrend_totalDebit, heq]
    · simp [applyTxToTrend_totalDebit, heq]
  · rw [if_neg heq]
    simp [heq]

/-! ### Sort comparator lemmas -/

/-- The ascending comparator accepts (≤ 0) exactly the ≤ pairs. -/
theorem cmpVal_asc_le {β : Type} [LinearOrder β] (x y : β) :
    cmpVal .ascending x y ≤ 0 ↔ x ≤ y := by
  unfold cmpVal
  split_ifs with h1 h2
  · exact iff_of_true (by norm_num) h1.le
  · exact iff_of_false (by norm_num) (not_le.mpr h2)
  · exact iff_of_true le_rfl (not_lt.mp h2)

/-- The descending comparator accepts (≤ 0) exactly the ≥ pairs. -/
theorem cmpVal_desc_le {β : Type} [LinearOrder β] (x y : β) :
    cmpVal .descending x y ≤ 0 ↔ y ≤ x := by
  unfold cmpVal
  split_ifs with h1 h2
  · exact iff_of_false (by norm_num) (not_le.mpr h1)
  · exact iff_of_true (by norm_num) h2.le
  · exact iff_of_true le_rfl (not_lt.mp h1)

/-- The comparator is reflexive-neutral: equal keys compare to 0. -/
theorem cmpVal_self {β : Type} [LinearOrder β] (dir : Direction) (x : β) :
    cmpVal dir x x = 0 := by
  simp [cmpVal]

/-- The comparator order is transitive, in both directions. -/
theorem cmpVal_le_trans {β : Type} [LinearOrder β] (dir : Direction) (x y z : β) :
    cmpVal dir x y ≤ 0 → cmpVal dir y z ≤ 0 → cmpVal dir x z ≤ 0 := by
  cases dir
  · rw [cmpVal_asc_le, cmpVal_asc_le, cmpVal_asc_le]
    exact le_trans
  · rw [cmpVal_desc_le, cmpVal_desc_le, cmpVal_desc_le]
    exact fun h1 h2 => le_trans h2 h1

/-- The comparator order is total, in both directions. -/
theorem cmpVal_le_total {β : Type} [LinearOrder β] (dir : Direction) (x y : β) :
    cmpVal dir x y ≤ 0 ∨ cmpVal dir y x ≤ 0 := by
  cases dir
  · rw [cmpVal_asc_le, cmpVal_asc_le]
    exact le_total x y
  · rw [cmpVal_desc_le, cmpVal_desc_le]
    exact le_total y x

/-- A stable sort on a boolean order under which all elements selected by a
predicate are mutually tied keeps the selected sublist exactly as it was:
the filter of the sorted list is the filter of the input. -/
theorem mergeSort_filter_of_tied {α : Type} {le : α → α → Bool}
    (htrans : ∀ a b c, le a b = true → le b c = true → le a c = true)
    (htot : ∀ a b, (le a b || le b a) = true)
    (p : α → Bool) (hp : ∀ a b, p a = true → p b = true → le a b = true)
    (l : List α) :
    (l.mergeSort le).filter p = l.filter p := by
  have hpw : List.Pairwise (fun a b => le a b = true) (l.filter p) := by
    rw [List.pairwise_iff_forall_sublist]
    intro a b hab
    have hmem : ∀ x ∈ [a, b], x ∈ l.filter p := fun x hx => hab.subset hx
    have ha := (List.mem_filter.mp (hmem a (by simp))).2
    have hb := (List.mem_filter.mp (hmem b (by simp))).2
    exact hp a b ha hb
  have hsub : (l.filter p).Sublist (l.mergeSort le) :=
    List.sublist_mergeSort htrans htot hpw (List.filter_sublist l)
  have hsub2 : (l.filter p).Sublist ((l.mergeSort le).filter p) := by
    have h2 := hsub.filter p
    rw [List.filter_filter] at h2
    have hpp : List.filter (fun a => p a && p a) l = List.filter p l := by
      apply List.filter_congr
      intro x _
      cases hpx : p x <;> simp [hpx]
    rwa [hpp] at h2
  have hperm : ((l.mergeSort le).filter p).Perm (l.filter p) :=
    (List.mergeSort_perm l le).filter p
  exact (hsub2.eq_of_length hperm.length_eq.symm).symm

/-- Sorting with the descending key comparator produces exactly the reverse
of sorting with the ascending one, provided no two key values coincide. -/
theorem mergeSort_key_desc_eq_reverse {α β : Type} [LinearOrder β] (κ : α → β)
    (l : List α) (hnd : (l.map κ).Nodup) :
    l.mergeSort (fun a b => decide (cmpVal .descending (κ a) (κ b) ≤ 0)) =
      (l.mergeSort (fun a b => decide (cmpVal .ascending (κ a) (κ b) ≤ 0))).reverse := by
  have hfa : (fun a b : α => decide (cmpVal .ascending (κ a) (κ b) ≤ 0)) =
      fun a b => decide (κ a ≤ κ b) :=
    funext fun a => funext fun b => decide_eq_decide.mpr (cmpVal_asc_le _ _)
  have hfd : (fun a b : α => decide (cmpVal .descending (κ a) (κ b) ≤ 0)) =
      fun a b => decide (κ b ≤ κ a) :=
    funext fun a => funext fun b => decide_eq_decide.mpr (cmpVal_desc_le _ _)
  rw [hfa, hfd]
  set A := l.mergeSort (fun a b => decide (κ a ≤ κ b)) with hA
  set D := l.mergeSort (fun a b => decide (κ b ≤ κ a)) with hD
  have htransA : ∀ a b c : α, decide (κ a ≤ κ b) = true → decide (κ b ≤ κ c) = true →
      decide (κ a ≤ κ c) = true := fun a b c h1 h2 =>
    decide_eq_true_iff.mpr (le_trans (of_decide_eq_true h1) (of_decide_eq_true h2))
  have htotA : ∀ a b : α, (decide (κ a ≤ κ b) || decide (κ b ≤ κ a)) = true := by
    intro a b
    rcases le_total (κ a) (κ b) with h | h <;> simp [h]
  have htransD : ∀ a b c : α, decide (κ b ≤ κ a) = true → decide (κ c ≤ κ b) = true →
      decide (κ c ≤ κ a) = true := fun a b c h1 h2 =>
    decide_eq_true_iff.mpr (le_trans (of_decide_eq_true h2) (of_decide_eq_true h1))
  have htotD : ∀ a b : α, (decide (κ b ≤ κ a) || decide (κ a ≤ κ b)) = true := by
    intro a b
    rcases le_total (κ a) (κ b) with h | h <;> simp [h]
  have hpwA : List.Pairwise (fun a b => κ a ≤ κ b) A := by
    have hs := List.sorted_mergeSort htransA htotA l
    exact hs.imp of_decide_eq_true
  have hpwD : List.Pairwise (fun a b => κ b ≤ κ a) D := by
    have hs := List.sorted_mergeSort htransD htotD l
    exact hs.imp of_decide_eq_true
  have hpermA : A.Perm l := List.mergeSort_perm l _
  have hpermD : D.Perm l := List.mergeSort_perm l _
  have hndA : (A.map κ).Nodup := (hpermA.map κ).symm.nodup ((hnd))
  have hndD : (D.map κ).Nodup := (hpermD.map κ).symm.nodup ((hnd))
  have hneA : List.Pairwise (fun a b => κ a ≠ κ b) A := List.pairwise_map.mp hndA
  have hneD : List.Pairwise (fun a b => κ a ≠ κ b) D := List.pairwise_map.mp hndD
  have hltA : List.Pairwise (fun a b => κ a < κ b) A :=
    (hpwA.and hneA).imp (fun h => lt_of_le_of_ne h.1 h.2)
  have hltRev : List.Pairwise (fun a b => κ a < κ b) D.reverse := by
    rw [List.pairwise_reverse]
    exact (hpwD.and hneD).imp (fun h => lt_of_le_of_ne h.1 (fun hc => h.2 hc.symm))
  have hperm : A.Perm D.reverse := hpermA.trans (hpermD.symm.trans (D.reverse_perm).symm)
  haveI : IsAntisymm α (fun a b => κ a < κ b) :=
    ⟨fun a b h1 h2 => absurd (h1.trans h2) (lt_irrefl _)⟩
  have heq : A = D.reverse := List.eq_of_perm_of_sorted hperm hltA hltRev
  rw [heq, List.reverse_reverse]

/-- Rows with equal key values are ties of the comparator, in both directions. -/
theorem trendLE_of_keyVal_eq (k : SortKey) (d : Direction) (a b : ClientMonthlyTrend)
    (h : keyValOf k a = keyValOf k b) : trendLE k d a b = true := by
  cases k <;> simp [keyValOf] at h <;> simp [trendLE, trendCmp, h, cmpVal_self]

/-- The comparator-induced boolean order is transitive for every key and
direction. -/
theorem trendLE_trans (k : SortKey) (d : Direction) :
    ∀ a b c, trendLE k d a b = true → trendLE k d b c = true → trendLE k d a c = true := by
  intro a b c h1 h2
  cases k <;>
    (simp only [trendLE, trendCmp, decide_eq_true_iff] at h1 h2 ⊢
     exact cmpVal_le_trans d _ _ _ h1 h2)

/-- The comparator-induced boolean order is total for every key and direction. -/
theorem trendLE_total (k : SortKey) (d : Direction) :
    ∀ a b, (trendLE k d a b || trendLE k d b a) = true := by
  intro a b
  cases k <;>
    (simp only [trendLE, trendCmp, Bool.or_eq_true, decide_eq_true_iff]
     exact cmpVal_le_total d _ _)

/-!
### Claim theorems
-/

/-- C1. Balance verification contract: `verify` returns null exactly on a
missing analysis result; on any opening balance, closing balance and summary
list it returns `calculatedClosing = opening + Σ totalCredit − Σ totalDebit`,
`difference = calculatedClosing − closing`, and `isMatch` holds exactly when
`|difference| < 0.01`; an empty summary list yields `calculatedClosing =
opening`. -/
theorem spec_c1_balance_verifier :
    verify none = none ∧
    (∀ (o c : ℚ) (ss : List ClientSummary), ∃ bv : BalanceVerification,
      verify (some (o, c, ss)) = some bv ∧
      bv.calculatedClosing =
        o + (ss.map ClientSummary.totalCredit).sum - (ss.map ClientSummary.totalDebit).sum ∧
      bv.difference = bv.calculatedClosing - c ∧
      (bv.isMatch = true ↔ |bv.difference| < 1 / 100)) ∧
    (∀ o c : ℚ, ∃ bv : BalanceVerification,
      verify (some (o, c, ([] : List ClientSummary))) = some bv ∧ bv.calculatedClosing = o) := by
  refine ⟨rfl, ?_, ?_⟩
  · intro o c ss
    refine ⟨_, rfl, ?_, rfl, decide_eq_true_iff⟩
    simp [fullGrandTotals_eq]
  · intro o c
    refine ⟨_, rfl, ?_⟩
    simp [fullGrandTotals_eq]

/-- C5. Filter noninterference: the balance verification value computed by the
results display is the same for every search query as for the empty query,
because it is derived from the unfiltered grand totals. -/
theorem spec_c5_filter_noninterference :
    ∀ (r : AnalysisResult) (q : String) (cfg : Option (SortKey × Direction)),
      (resultsDisplayState r q cfg).balance = (resultsDisplayState r "" cfg).balance :=
  fun _ _ _ => rfl

/-- C7. Filter identity: the empty query returns the collection unchanged
(same elements, same order); a query keeps exactly the items whose lower-cased
client name contains the lower-cased query as a substring. -/
theorem spec_c7_filter_identity :
    ∀ (q : String) (ss : List ClientSummary) (mt : List ClientMonthlyTrend),
      filteredClientSummaries "" ss = ss ∧
      filteredMonthlyTrends "" mt = mt ∧
      (∀ s, s ∈ filteredClientSummaries q ss ↔
        s ∈ ss ∧ (jsToLower q).data <:+: (jsToLower s.clientName).data) ∧
      (∀ r, r ∈ filteredMonthlyTrends q mt ↔
        r ∈ mt ∧ (jsToLower q).data <:+: (jsToLower r.clientName).data) := by
  intro q ss mt
  refine ⟨rfl, rfl, ?_, ?_⟩
  · intro s
    by_cases hq : (q == "") = true
    · have hq' : q = "" := beq_iff_eq.mp hq
      subst hq'
      simp [filteredClientSummaries, jsToLower, List.nil_infix]
    · simp [filteredClientSummaries, hq, List.mem_filter, jsIncludes]
  · intro r
    by_cases hq : (q == "") = true
    · have hq' : q = "" := beq_iff_eq.mp hq
      subst hq'
      simp [filteredMonthlyTrends, jsToLower, List.nil_infix]
    · simp [filteredMonthlyTrends, hq, List.mem_filter, jsIncludes]

/-- C8. Sort-toggle transition: clicking the key that is currently sorted
ascending flips it to descending; clicking a different key, a key currently
descending, or sorting from the unsorted state yields ascending on the
clicked key. -/
theorem spec_c8_request_sort :
    ∀ (k k' : SortKey) (d : Direction),
      requestSort (some (k, .ascending)) k = (k, .descending) ∧
      (k' ≠ k → requestSort (some (k', d)) k = (k, .ascending)) ∧
      requestSort (some (k', .descending)) k = (k, .ascending) ∧
      requestSort none k = (k, .ascending) := by
  intro k k' d
  refine ⟨?_, ?_, ?_, rfl⟩
  · simp [requestSort]
  · intro hne
    simp [requestSort, hne]
  · simp [requestSort]

/-- Witness for C8 at concrete keys: toggling an ascending month sort flips to
descending, and clicking month while client-name is sorted starts ascending. -/
theorem spec_c8_witness :
    requestSort (some (SortKey.month, Direction.ascending)) SortKey.month =
      (SortKey.month, Direction.descending) ∧
    requestSort (some (SortKey.clientName, Direction.ascending)) SortKey.month =
      (SortKey.month, Direction.ascending) :=
  ⟨(spec_c8_request_sort SortKey.month SortKey.clientName Direction.ascending).1,
   (spec_c8_request_sort SortKey.month SortKey.clientName Direction.ascending).2.1
     (by decide)⟩

/-- C2. Invalid-date asymmetry: a transaction whose date fails the
`^\d{4}-\d{2}-\d{2}$` pattern still adds its amount and count to its client's
summary (and to the grand totals) but leaves the trend map unchanged; a
valid-dated transaction contributes to its summary row and to its
(client, month) trend row alike; globally, the trend map is determined by
the valid-dated transactions alone. -/
theorem spec_c2_invalid_date_asymmetry :
    ∀ (ts : List ClientTransaction) (t : ClientTransaction),
      (jsDateValid t.date = false →
        monthlyTrendsOf (ts ++ [t]) = monthlyTrendsOf ts ∧
        summaryCredit (ts ++ [t]) t.clientName =
          summaryCredit ts t.clientName + (if t.type = .credit then t.amount else 0) ∧
        summaryCreditCount (ts ++ [t]) t.clientName =
          summaryCreditCount ts t.clientName + (if t.type = .credit then 1 else 0) ∧
        summaryDebit (ts ++ [t]) t.clientName =
          summaryDebit ts t.clientName + (if t.type = .debit then t.amount else 0) ∧
        summaryDebitCount (ts ++ [t]) t.clientName =
          summaryDebitCount ts t.clientName + (if t.type = .debit then 1 else 0) ∧
        ((clientSummariesOf (ts ++ [t])).map ClientSummary.totalCredit).sum =
          ((clientSummariesOf ts).map ClientSummary.totalCredit).sum +
            (if t.type = .credit then t.amount else 0) ∧
        ((clientSummariesOf (ts ++ [t])).map ClientSummary.totalDebit).sum =
          ((clientSummariesOf ts).map ClientSummary.totalDebit).sum +
            (if t.type = .debit then t.amount else 0)) ∧
      (jsDateValid t.date = true →
        summaryCredit (ts ++ [t]) t.clientName =
          summaryCredit ts t.clientName + (if t.type = .credit then t.amount else 0) ∧
        summaryCreditCount (ts ++ [t]) t.clientName =
          summaryCreditCount ts t.clientName + (if t.type = .credit then 1 else 0) ∧
        summaryDebit (ts ++ [t]) t.clientName =
          summaryDebit ts t.clientName + (if t.type = .debit then t.amount else 0) ∧
        summaryDebitCount (ts ++ [t]) t.clientName =
          summaryDebitCount ts t.clientName + (if t.type = .debit then 1 else 0) ∧
        trendCredit (ts ++ [t]) (trendKeyOf t) =
          trendCredit ts (trendKeyOf t) + (if t.type = .credit then t.amount else 0) ∧
        trendDebit (ts ++ [t]) (trendKeyOf t) =
          trendDebit ts (trendKeyOf t) + (if t.type = .debit then t.amount else 0)) ∧
      monthlyTrendsOf ts = monthlyTrendsOf (ts.filter (fun u => jsDateValid u.date)) := by
  intro ts t
  have hsum : summaryCredit (ts ++ [t]) t.clientName =
      summaryCredit ts t.clientName + (if t.type = .credit then t.amount else 0) := by
    rw [summaryCredit_concat]
    simp
  have hsumc : summaryCreditCount (ts ++ [t]) t.clientName =
      summaryCreditCount ts t.clientName + (if t.type = .credit then 1 else 0) := by
    rw [summaryCreditCount_concat]
    simp
  have hsumd : summaryDebit (ts ++ [t]) t.clientName =
      summaryDebit ts t.clientName + (if t.type = .debit then t.amount else 0) := by
    rw [summaryDebit_concat]
    simp
  have hsumdc : summaryDebitCount (ts ++ [t]) t.clientName =
      summaryDebitCount ts t.clientName + (if t.type = .debit then 1 else 0) := by
    rw [summaryDebitCount_concat]
    simp
  have hgc : ((clientSummariesOf (ts ++ [t])).map ClientSummary.totalCredit).sum =
      ((clientSummariesOf ts).map ClientSummary.totalCredit).sum +
        (if t.type = .credit then t.amount else 0) := by
    rw [sum_map_clientSummariesOf, sum_map_clientSummariesOf, sum_rows_totalCredit,
      sum_rows_totalCredit, creditTotalOf_concat]
  have hgd : ((clientSummariesOf (ts ++ [t])).map ClientSummary.totalDebit).sum =
      ((clientSummariesOf ts).map ClientSummary.totalDebit).sum +
        (if t.type = .debit then t.amount else 0) := by
    rw [sum_map_clientSummariesOf, sum_map_clientSummariesOf, sum_rows_totalDebit,
      sum_rows_totalDebit, debitTotalOf_concat]
  refine ⟨?_, ?_, monthlyTrendsOf_filter_valid ts⟩
  · intro hv
    refine ⟨?_, hsum, hsumc, hsumd, hsumdc, hgc, hgd⟩
    rw [monthlyTrendsOf_concat, trendStep_invalid _ _ hv]
  · intro hv
    refine ⟨hsum, hsumc, hsumd, hsumdc, ?_, ?_⟩
    · rw [trendCredit_concat ts t hv]
      simp
    · rw [trendDebit_concat ts t hv]
      simp

/-- A credit transaction with an unparseable date, used as concrete input. -/
def txBadDate : ClientTransaction :=
  ⟨"X", 10, TxType.credit, "not-a-date"⟩

/-- A credit transaction with a well-formed date, used as concrete input. -/
def txGoodDate : ClientTransaction :=
  ⟨"Y", 5, TxType.credit, "2024-01-05"⟩

/-- Witness for C2 at concrete inputs: one invalid-dated and one valid-dated
credit transaction appended to the empty ledger. -/
theorem spec_c2_witness :
    (monthlyTrendsOf ([] ++ [txBadDate]) = monthlyTrendsOf [] ∧
     summaryCredit ([] ++ [txBadDate]) txBadDate.clientName =
       summaryCredit [] txBadDate.clientName +
         (if txBadDate.type = .credit then txBadDate.amount else 0) ∧
     summaryCreditCount ([] ++ [txBadDate]) txBadDate.clientName =
       summaryCreditCount [] txBadDate.clientName +
         (if txBadDate.type = .credit then 1 else 0) ∧
     summaryDebit ([] ++ [txBadDate]) txBadDate.clientName =
       summaryDebit [] txBadDate.clientName +
         (if txBadDate.type = .debit then txBadDate.amount else 0) ∧
     summaryDebitCount ([] ++ [txBadDate]) txBadDate.clientName =
       summaryDebitCount [] txBadDate.clientName +
         (if txBadDate.type = .debit then 1 else 0) ∧
     ((clientSummariesOf ([] ++ [txBadDate])).map ClientSummary.totalCredit).sum =
       ((clientSummariesOf []).map ClientSummary.totalCredit).sum +
         (if txBadDate.type = .credit then txBadDate.amount else 0) ∧
     ((clientSummariesOf ([] ++ [txBadDate])).map ClientSummary.totalDebit).sum =
       ((clientSummariesOf []).map ClientSummary.totalDebit).sum +
         (if txBadDate.type = .debit then txBadDate.amount else 0)) ∧
    (summaryCredit ([] ++ [txGoodDate]) txGoodDate.clientName =
       summaryCredit [] txGoodDate.clientName +
         (if txGoodDate.type = .credit then txGoodDate.amount else 0) ∧
     summaryCreditCount ([] ++ [txGoodDate]) txGoodDate.clientName =
       summaryCreditCount [] txGoodDate.clientName +
         (if txGoodDate.type = .credit then 1 else 0) ∧
     summaryDebit ([] ++ [txGoodDate]) txGoodDate.clientName =
       summaryDebit [] txGoodDate.clientName +
         (if txGoodDate.type = .debit then txGoodDate.amount else 0) ∧
     summaryDebitCount ([] ++ [txGoodDate]) txGoodDate.clientName =
       summaryDebitCount [] txGoodDate.clientName +
         (if txGoodDate.type = .debit then 1 else 0) ∧
     trendCredit ([] ++ [txGoodDate]) (trendKeyOf txGoodDate) =
       trendCredit [] (trendKeyOf txGoodDate) +
         (if txGoodDate.type = .credit then txGoodDate.amount else 0) ∧
     trendDebit ([] ++ [txGoodDate]) (trendKeyOf txGoodDate) =
       trendDebit [] (trendKeyOf txGoodDate) +
         (if txGoodDate.type = .debit then txGoodDate.amount else 0)) :=
  ⟨(spec_c2_invalid_date_asymmetry [] txBadDate).1 (by decide),
   (spec_c2_invalid_date_asymmetry [] txGoodDate).2.1 (by decide)⟩

/-- C4. Aggregation additivity: splitting a transaction list into two pieces
in any way (any interleaving, hence any partition into two sublists and any
reordering) and aggregating each piece separately sums, field by field and
client by client, to the aggregation of the whole list. -/
theorem spec_c4_additivity :
    ∀ (l l1 l2 : List ClientTransaction), l.Perm (l1 ++ l2) → ∀ n : String,
      summaryCredit l n = summaryCredit l1 n + summaryCredit l2 n ∧
      summaryCreditCount l n = summaryCreditCount l1 n + summaryCreditCount l2 n ∧
      summaryDebit l n = summaryDebit l1 n + summaryDebit l2 n ∧
      summaryDebitCount l n = summaryDebitCount l1 n + summaryDebitCount l2 n ∧
      summaryNet l n = summaryNet l1 n + summaryNet l2 n := by
  intro l l1 l2 hperm n
  have hc : summaryCredit l n = summaryCredit l1 n + summaryCredit l2 n := by
    rw [summaryCredit_closed, summaryCredit_closed, summaryCredit_closed,
      ← List.sum_append, ← List.map_append, ← List.filter_append]
    exact (((hperm.filter _).map ClientTransaction.amount).sum_eq)
  have hcc : summaryCreditCount l n = summaryCreditCount l1 n + summaryCreditCount l2 n := by
    rw [summaryCreditCount_closed, summaryCreditCount_closed, summaryCreditCount_closed,
      ← List.length_append, ← List.filter_append]
    exact (hperm.filter _).length_eq
  have hd : summaryDebit l n = summaryDebit l1 n + summaryDebit l2 n := by
    rw [summaryDebit_closed, summaryDebit_closed, summaryDebit_closed,
      ← List.sum_append, ← List.map_append, ← List.filter_append]
    exact (((hperm.filter _).map ClientTransaction.amount).sum_eq)
  have hdc : summaryDebitCount l n = summaryDebitCount l1 n + summaryDebitCount l2 n := by
    rw [summaryDebitCount_closed, summaryDebitCount_closed, summaryDebitCount_closed,
      ← List.length_append, ← List.filter_append]
    exact (hperm.filter _).length_eq
  refine ⟨hc, hcc, hd, hdc, ?_⟩
  rw [summaryNet_eq, summaryNet_eq, summaryNet_eq, hc, hd]
  ring

/-- A credit transaction for client A, used as concrete input. -/
def txCreditA : ClientTransaction :=
  ⟨"A", 1, TxType.credit, "2024-01-01"⟩

/-- A debit transaction for client A, used as concrete input. -/
def txDebitA : ClientTransaction :=
  ⟨"A", 2, TxType.debit, "2024-01-02"⟩

/-- Witness for C4 at a concrete two-element partition. -/
theorem spec_c4_witness :
    summaryCredit ([txCreditA] ++ [txDebitA]) "A" =
      summaryCredit [txCreditA] "A" + summaryCredit [txDebitA] "A" ∧
    summaryCreditCount ([txCreditA] ++ [txDebitA]) "A" =
      summaryCreditCount [txCreditA] "A" + summaryCreditCount [txDebitA] "A" ∧
    summaryDebit ([txCreditA] ++ [txDebitA]) "A" =
      summaryDebit [txCreditA] "A" + summaryDebit [txDebitA] "A" ∧
    summaryDebitCount ([txCreditA] ++ [txDebitA]) "A" =
      summaryDebitCount [txCreditA] "A" + summaryDebitCount [txDebitA] "A" ∧
    summaryNet ([txCreditA] ++ [txDebitA]) "A" =
      summaryNet [txCreditA] "A" + summaryNet [txDebitA] "A" :=
  spec_c4_additivity ([txCreditA] ++ [txDebitA]) [txCreditA] [txDebitA]
    (List.Perm.refl _) "A"

/-- C10. Grand-totals homomorphism: the credit (resp. debit) column of the
aggregated summaries sums to the total credit (resp. debit) amount of the
transaction list, and hence summary-based balance verification agrees with
verification computed directly from the transactions. -/
theorem spec_c10_grand_totals_homomorphism :
    ∀ (ts : List ClientTransaction) (o c : ℚ),
      ((clientSummariesOf ts).map ClientSummary.totalCredit).sum = creditTotalOf ts ∧
      ((clientSummariesOf ts).map ClientSummary.totalDebit).sum = debitTotalOf ts ∧
      verify (some (o, c, clientSummariesOf ts)) = some (balanceFromTransactions o c ts) := by
  intro ts o c
  have h1 : ((clientSummariesOf ts).map ClientSummary.totalCredit).sum = creditTotalOf ts := by
    rw [sum_map_clientSummariesOf, sum_rows_totalCredit]
  have h2 : ((clientSummariesOf ts).map ClientSummary.totalDebit).sum = debitTotalOf ts := by
    rw [sum_map_clientSummariesOf, sum_rows_totalDebit]
  have hg : fullGrandTotals (clientSummariesOf ts) = (creditTotalOf ts, debitTotalOf ts) := by
    rw [fullGrandTotals_eq, h1, h2]
  refine ⟨h1, h2, ?_⟩
  simp [verify, balanceFromTransactions, hg]

/-- C9. The aggregator groups by the raw client name: any two names that both
occur in the transaction list and differ at all (even only by letter case or
surrounding whitespace) own two distinct summary rows — while the reconciler's
normalization would identify such names, e.g. "Acme" and "acme ". -/
theorem spec_c9_raw_name_grouping :
    ∀ (ts : List ClientTransaction) (n1 n2 : String),
      n1 ∈ ts.map ClientTransaction.clientName →
      n2 ∈ ts.map ClientTransaction.clientName →
      n1 ≠ n2 →
      (∃ s1, s1 ∈ clientSummariesOf ts ∧ s1.clientName = n1) ∧
      (∃ s2, s2 ∈ clientSummariesOf ts ∧ s2.clientName = n2) ∧
      (∀ s1 s2, s1 ∈ clientSummariesOf ts → s2 ∈ clientSummariesOf ts →
        s1.clientName = n1 → s2.clientName = n2 → s1 ≠ s2) ∧
      normalizeName "Acme" = normalizeName "acme " := by
  intro ts n1 n2 h1 h2 hne
  have hrow : ∀ n, n ∈ ts.map ClientTransaction.clientName →
      ∃ s, s ∈ clientSummariesOf ts ∧ s.clientName = n := by
    intro n hn
    have := (mem_keys_processSummariesMap ts n).mpr hn
    rcases List.mem_map.mp this with ⟨s, hs, hsn⟩
    exact ⟨s, List.mem_mergeSort.mpr hs, hsn⟩
  refine ⟨hrow n1 h1, hrow n2 h2, ?_, by decide⟩
  intro s1 s2 _ _ hs1 hs2 heq
  apply hne
  rw [← hs1, ← hs2, heq]

/-- The two-client ledger whose names differ only in case and whitespace. -/
def tsCaseWhitespace : List ClientTransaction :=
  [⟨"Acme", 10, TxType.credit, "2024-01-05"⟩, ⟨"acme ", 5, TxType.credit, "2024-01-06"⟩]

/-- Witness for C9 on the two-client ledger. -/
theorem spec_c9_witness :
    (∃ s1, s1 ∈ clientSummariesOf tsCaseWhitespace ∧ s1.clientName = "Acme") ∧
    (∃ s2, s2 ∈ clientSummariesOf tsCaseWhitespace ∧ s2.clientName = "acme ") ∧
    (∀ s1 s2, s1 ∈ clientSummariesOf tsCaseWhitespace →
      s2 ∈ clientSummariesOf tsCaseWhitespace →
      s1.clientName = "Acme" → s2.clientName = "acme " → s1 ≠ s2) ∧
    normalizeName "Acme" = normalizeName "acme " :=
  spec_c9_raw_name_grouping tsCaseWhitespace "Acme" "acme "
    (by decide) (by decide) (by decide)

/-- C3. Payment reconciliation classification: one output row per expected
payment in input order; `paidAmount` is the matched summary's `totalCredit`
under case-insensitive whitespace-trimmed name equality, or 0 without a match;
`difference = paidAmount − expectedAmount` is always reported; and the status
is exactly the first applicable rule of the cascade
Not Paid / Paid / Partial Payment / Payment Exceeded. -/
theorem spec_c3_reconciliation :
    ∀ (ss : List ClientSummary) (es : List ExpectedPayment),
      reconcile ss es = es.map (reconcileOne ss) ∧
      ∀ e : ExpectedPayment,
        (reconcileOne ss e).clientName = e.clientName ∧
        (reconcileOne ss e).expectedAmount = e.amount ∧
        (reconcileOne ss e).paidAmount =
          ((ss.find? (fun s => normalizeName s.clientName == normalizeName e.clientName)).elim
            0 (fun s => s.totalCredit)) ∧
        (reconcileOne ss e).difference = (reconcileOne ss e).paidAmount - e.amount ∧
        ((reconcileOne ss e).status = .notPaid ↔ (reconcileOne ss e).paidAmount = 0) ∧
        ((reconcileOne ss e).status = .paid ↔
          (reconcileOne ss e).paidAmount ≠ 0 ∧
          |(reconcileOne ss e).difference| < 1 / 100) ∧
        ((reconcileOne ss e).status = .partialPayment ↔
          (reconcileOne ss e).paidAmount ≠ 0 ∧
          ¬(|(reconcileOne ss e).difference| < 1 / 100) ∧
          (reconcileOne ss e).difference < 0) ∧
        ((reconcileOne ss e).status = .exceeded ↔
          (reconcileOne ss e).paidAmount ≠ 0 ∧
          ¬(|(reconcileOne ss e).difference| < 1 / 100) ∧
          ¬((reconcileOne ss e).difference < 0)) := by
  intro ss es
  refine ⟨rfl, ?_⟩
  intro e
  set paid : ℚ := ((ss.find? (fun s =>
      normalizeName s.clientName == normalizeName e.clientName)).elim
    0 (fun s => s.totalCredit)) with hpaid
  have hrec : reconcileOne ss e =
      ⟨e.clientName, e.amount, paid,
        if paid = 0 then .notPaid
        else if |paid - e.amount| < 1 / 100 then .paid
        else if paid - e.amount < 0 then .partialPayment
        else .exceeded,
        paid - e.amount⟩ := rfl
  rw [hrec]
  refine ⟨rfl, rfl, rfl, rfl, ?_, ?_, ?_, ?_⟩ <;>
    (by_cases h0 : paid = 0 <;> by_cases h1 : |paid - e.amount| < (100 : ℚ)⁻¹ <;>
      by_cases h2 : paid - e.amount < 0 <;> simp [h0, h1, h2])

set_option maxHeartbeats 1600000 in
/-- C6. Sort reversal and stability: with pairwise-distinct key values the
descending sort is the exact reverse of the ascending sort; and for every key,
direction and key value, the elements carrying that value appear in the sorted
output in their original relative order. -/
theorem spec_c6_sort_reversal_stability :
    ∀ (k : SortKey) (l : List ClientMonthlyTrend),
      ((l.map (keyValOf k)).Nodup →
        sortedMonthlyTrends (some (k, .descending)) l =
          (sortedMonthlyTrends (some (k, .ascending)) l).reverse) ∧
      (∀ (d : Direction) (v : String ⊕ ℚ),
        (sortedMonthlyTrends (some (k, d)) l).filter (fun t => decide (keyValOf k t = v)) =
          l.filter (fun t => decide (keyValOf k t = v))) := by
  intro k l
  constructor
  · intro hnd
    show l.mergeSort (trendLE k .descending) = (l.mergeSort (trendLE k .ascending)).reverse
    cases k
    case clientName =>
      have hmm : l.map (keyValOf .clientName) =
          (l.map (fun t => t.clientName)).map Sum.inl := by
        rw [List.map_map]
        rfl
      rw [hmm] at hnd
      exact mergeSort_key_desc_eq_reverse (fun t => t.clientName) l hnd.of_map
    case month =>
      have hmm : l.map (keyValOf .month) = (l.map (fun t => t.month)).map Sum.inl := by
        rw [List.map_map]
        rfl
      rw [hmm] at hnd
      exact mergeSort_key_desc_eq_reverse (fun t => t.month) l hnd.of_map
    case totalCredit =>
      have hmm : l.map (keyValOf .totalCredit) =
          (l.map (fun t => t.totalCredit)).map Sum.inr := by
        rw [List.map_map]
        rfl
      rw [hmm] at hnd
      exact mergeSort_key_desc_eq_reverse (fun t => t.totalCredit) l hnd.of_map
    case totalDebit =>
      have hmm : l.map (keyValOf .totalDebit) =
          (l.map (fun t => t.totalDebit)).map Sum.inr := by
        rw [List.map_map]
        rfl
      rw [hmm] at hnd
      exact mergeSort_key_desc_eq_reverse (fun t => t.totalDebit) l hnd.of_map
    case netChange =>
      have hmm : l.map (keyValOf .netChange) =
          (l.map (fun t => t.netChange)).map Sum.inr := by
        rw [List.map_map]
        rfl
      rw [hmm] at hnd
      exact mergeSort_key_desc_eq_reverse (fun t => t.netChange) l hnd.of_map
  · intro d v
    show (l.mergeSort (trendLE k d)).filter _ = l.filter _
    apply mergeSort_filter_of_tied (trendLE_trans k d) (trendLE_total k d)
    intro a b ha hb
    have hva : keyValOf k a = v := of_decide_eq_true ha
    have hvb : keyValOf k b = v := of_decide_eq_true hb
    exact trendLE_of_keyVal_eq k d a b (hva.trans hvb.symm)

/-- A two-row trend list with distinct client names, used as concrete input. -/
def trendRows : List ClientMonthlyTrend :=
  [⟨"b", "2024-01", 1, 0, 1⟩, ⟨"a", "2024-02", 2, 0, 2⟩]

/-- Witness for C6 on the two-row trend list, sorted by client name. -/
theorem spec_c6_witness :
    sortedMonthlyTrends (some (SortKey.clientName, Direction.descending)) trendRows =
      (sortedMonthlyTrends (some (SortKey.clientName, Direction.ascending)) trendRows).reverse :=
  (spec_c6_sort_reversal_stability SortKey.clientName trendRows).1 (by decide)
